import Mathlib

/-!
Shallow embedding of the rotation library in src/include/Rotations.hpp
(namespace LSE::Rotations) over the real numbers, together with theorems
settling the frozen claims about it.  Quaternions are stored vector part
first, then scalar part, as functions on Fin 4, mirroring the Eigen
Vector4d layout q(0..3); 3-vectors are functions on Fin 3.
-/

namespace LSE
namespace Rotations

open Real Matrix

noncomputable section

/-- C atan2(y, x): the angle of the point (x, y), realized as the complex
argument, with values in (-pi, pi]. -/
def atan2 (y x : ℝ) : ℝ := Complex.arg (x + y * Complex.I)

/-- Eigen Vector3d::norm(): Euclidean norm of a 3-vector. -/
def vnorm3 (v : Fin 3 → ℝ) : ℝ := Real.sqrt (v 0 ^ 2 + v 1 ^ 2 + v 2 ^ 2)

/-- Eigen Vector4d::norm(): Euclidean norm of a 4-vector. -/
def qnorm4 (q : Fin 4 → ℝ) : ℝ := Real.sqrt (q 0 ^ 2 + q 1 ^ 2 + q 2 ^ 2 + q 3 ^ 2)

/-- q.block(0,0,3,1): the vector part of a quaternion. -/
def qvec (q : Fin 4 → ℝ) : Fin 3 → ℝ := ![q 0, q 1, q 2]

/-- Eigen Vector4d::normalize(): divide the vector by its norm. -/
def qnormalize (q : Fin 4 → ℝ) : Fin 4 → ℝ := fun i => q i / qnorm4 q

/-- vecToSqew from Rotations.hpp: the cross-product (skew) matrix of v. -/
def vecToSqew (v : Fin 3 → ℝ) : Matrix (Fin 3) (Fin 3) ℝ :=
  Matrix.of ![![0, -v 2, v 1], ![v 2, 0, -v 0], ![-v 1, v 0, 0]]

/-- rangePi from Rotations.hpp: if the norm a of v is at most pi, v is
returned unchanged; otherwise v/a*a2 is returned, where
a2 = -2*pi*floor((a+pi)/(2*pi)) + a. -/
def rangePi (v : Fin 3 → ℝ) : Fin 3 → ℝ :=
  if vnorm3 v ≤ π then v
  else ((-2 * π * (⌊(vnorm3 v + π) / (2 * π)⌋ : ℤ) + vnorm3 v) / vnorm3 v) • v

/-- quatToRotVec from Rotations.hpp: with v the vector part, s its norm and
c = q(3), returns v*(2*atan2(s,c))/s when s ≥ 1e-10 and v*2 otherwise. -/
def quatToRotVec (q : Fin 4 → ℝ) : Fin 3 → ℝ :=
  if 1e-10 ≤ vnorm3 (qvec q) then
    (2 * atan2 (vnorm3 (qvec q)) (q 3) / vnorm3 (qvec q)) • qvec q
  else (2 : ℝ) • qvec q

/-- rotVecToQuat from Rotations.hpp: with a the norm of v, the quaternion
(sin(a/2)/a*v, cos(a/2)) when a ≥ 1e-10, else (v, cos(a/2)); the result is
then normalized (Eigen normalize divides by the norm). -/
def rotVecToQuat (v : Fin 3 → ℝ) : Fin 4 → ℝ :=
  qnormalize (if 1e-10 ≤ vnorm3 v then
    ![Real.sin (vnorm3 v / 2) / vnorm3 v * v 0,
      Real.sin (vnorm3 v / 2) / vnorm3 v * v 1,
      Real.sin (vnorm3 v / 2) / vnorm3 v * v 2,
      Real.cos (vnorm3 v / 2)]
  else ![v 0, v 1, v 2, Real.cos (vnorm3 v / 2)])

/-- quatInverse from Rotations.hpp: negate the vector part, keep the scalar. -/
def quatInverse (q : Fin 4 → ℝ) : Fin 4 → ℝ := ![-q 0, -q 1, -q 2, q 3]

/-- quatIdentity from Rotations.hpp. -/
def quatIdentity : Fin 4 → ℝ := ![0, 0, 0, 1]

/-- quatL from Rotations.hpp: the matrix is built as q(3)*I, plus the skew
matrix of the vector part on the top-left 3x3 block, then row 3 is
overwritten with -q^T and finally column 3 with q (so entry (3,3) ends up
as q(3)).  The entries below are the result of that construction. -/
def quatL (q : Fin 4 → ℝ) : Matrix (Fin 4) (Fin 4) ℝ :=
  Matrix.of ![![q 3, -q 2, q 1, q 0],
              ![q 2, q 3, -q 0, q 1],
              ![-q 1, q 0, q 3, q 2],
              ![-q 0, -q 1, -q 2, q 3]]

/-- quatR from Rotations.hpp: as quatL but the skew matrix of the vector
part is subtracted from the top-left 3x3 block. -/
def quatR (q : Fin 4 → ℝ) : Matrix (Fin 4) (Fin 4) ℝ :=
  Matrix.of ![![q 3, q 2, -q 1, q 0],
              ![-q 2, q 3, q 0, q 1],
              ![q 1, -q 0, q 3, q 2],
              ![-q 0, -q 1, -q 2, q 3]]

/-- quatToYpr from Rotations.hpp. -/
def quatToYpr (q : Fin 4 → ℝ) : Fin 3 → ℝ :=
  ![atan2 (2 * (-q 3 * q 0 + q 1 * q 2)) (1 - 2 * (q 0 ^ 2 + q 1 ^ 2)),
    Real.arcsin (2 * (-q 3 * q 1 - q 0 * q 2)),
    atan2 (2 * (-q 3 * q 2 + q 0 * q 1)) (1 - 2 * (q 1 ^ 2 + q 2 ^ 2))]

/-- yprToQuat from Rotations.hpp, with c_phi = cos(v(0)/2), s_phi =
sin(v(0)/2), c_theta, s_theta, c_psi, s_psi as in the source. -/
def yprToQuat (v : Fin 3 → ℝ) : Fin 4 → ℝ :=
  ![Real.cos (v 0 / 2) * Real.sin (v 1 / 2) * Real.sin (v 2 / 2)
      - Real.cos (v 1 / 2) * Real.cos (v 2 / 2) * Real.sin (v 0 / 2),
    -(Real.cos (v 0 / 2) * Real.sin (v 1 / 2) * Real.cos (v 2 / 2))
      - Real.cos (v 1 / 2) * Real.sin (v 2 / 2) * Real.sin (v 0 / 2),
    -(Real.cos (v 0 / 2) * Real.cos (v 1 / 2) * Real.sin (v 2 / 2))
      + Real.sin (v 1 / 2) * Real.cos (v 2 / 2) * Real.sin (v 0 / 2),
    Real.cos (v 0 / 2) * Real.cos (v 1 / 2) * Real.cos (v 2 / 2)
      + Real.sin (v 1 / 2) * Real.sin (v 2 / 2) * Real.sin (v 0 / 2)]

/-- quatToRpy from Rotations.hpp. -/
def quatToRpy (q : Fin 4 → ℝ) : Fin 3 → ℝ :=
  ![atan2 (2 * (-q 2 * q 1 - q 3 * q 0)) (q 2 ^ 2 + q 3 ^ 2 - q 0 ^ 2 - q 1 ^ 2),
    Real.arcsin (2 * (q 0 * q 2 - q 3 * q 1)),
    atan2 (-2 * q 0 * q 1 - 2 * q 3 * q 2) (q 0 ^ 2 + q 3 ^ 2 - q 2 ^ 2 - q 1 ^ 2)]

/-- rpyToQuat from Rotations.hpp. -/
def rpyToQuat (v : Fin 3 → ℝ) : Fin 4 → ℝ :=
  ![-(Real.cos (v 0 / 2) * Real.cos (v 1 / 2) * Real.sin (v 2 / 2))
      - Real.sin (v 1 / 2) * Real.cos (v 2 / 2) * Real.sin (v 0 / 2),
    -(Real.cos (v 0 / 2) * Real.sin (v 1 / 2) * Real.cos (v 2 / 2))
      + Real.cos (v 1 / 2) * Real.sin (v 2 / 2) * Real.sin (v 0 / 2),
    -(Real.cos (v 0 / 2) * Real.sin (v 1 / 2) * Real.sin (v 2 / 2))
      - Real.cos (v 1 / 2) * Real.cos (v 2 / 2) * Real.sin (v 0 / 2),
    Real.cos (v 0 / 2) * Real.cos (v 1 / 2) * Real.cos (v 2 / 2)
      - Real.sin (v 1 / 2) * Real.sin (v 2 / 2) * Real.sin (v 0 / 2)]

/-- rpyToEar from Rotations.hpp (the final << assignment, which coincides
with the entrywise assignments before it). -/
def rpyToEar (rpy : Fin 3 → ℝ) : Matrix (Fin 3) (Fin 3) ℝ :=
  Matrix.of ![![Real.cos (rpy 1) * Real.cos (rpy 2), Real.sin (rpy 2), 0],
              ![-(Real.cos (rpy 1) * Real.sin (rpy 2)), Real.cos (rpy 2), 0],
              ![Real.sin (rpy 1), 0, 1]]

/-- rpyToEarInv from Rotations.hpp: zero matrix initially; entries are
filled in only when cp = cos(rpy(1)) exceeds 1e-10, with cpi = 1/cp and
tp = tan(rpy(1)). -/
def rpyToEarInv (rpy : Fin 3 → ℝ) : Matrix (Fin 3) (Fin 3) ℝ :=
  if 1e-10 < Real.cos (rpy 1) then
    Matrix.of ![![1 / Real.cos (rpy 1) * Real.cos (rpy 2),
                  -(1 / Real.cos (rpy 1) * Real.sin (rpy 2)), 0],
                ![Real.sin (rpy 2), Real.cos (rpy 2), 0],
                ![-(Real.cos (rpy 2) * Real.tan (rpy 1)),
                  Real.sin (rpy 2) * Real.tan (rpy 1), 1]]
  else 0

/-- NQuat::setIdentity from Rotations.hpp. -/
def nquatIdentity : Fin 4 → ℝ := ![0, 0, 0, 1]

/-- NQuat::normalize from Rotations.hpp: divide by the norm when it exceeds
1e-10, otherwise fall back to the identity quaternion. -/
def nquatNormalize (q : Fin 4 → ℝ) : Fin 4 → ℝ :=
  if 1e-10 < qnorm4 q then fun i => q i / qnorm4 q else ![0, 0, 0, 1]

/-- NQuat::operator* from Rotations.hpp, exactly as written in the source
(the receiver is a, the argument is b; note that the source has no a(3)
factor on the b(0), b(1), b(2) diagonal terms). -/
def nquatMul (a b : Fin 4 → ℝ) : Fin 4 → ℝ :=
  ![b 0 - a 2 * b 1 + a 1 * b 2 + a 0 * b 3,
    a 2 * b 0 + b 1 - a 0 * b 2 + a 1 * b 3,
    -a 1 * b 0 + a 0 * b 1 + b 2 + a 2 * b 3,
    -a 0 * b 0 - a 1 * b 1 - a 2 * b 2 + a 3 * b 3]

/-- NquatToRotVec from Rotations.hpp (same computation as quatToRotVec,
duplicated in the source for the NQuat type). -/
def NquatToRotVec (q : Fin 4 → ℝ) : Fin 3 → ℝ :=
  if 1e-10 ≤ vnorm3 ![q 0, q 1, q 2] then
    (2 * atan2 (vnorm3 ![q 0, q 1, q 2]) (q 3) / vnorm3 ![q 0, q 1, q 2]) • ![q 0, q 1, q 2]
  else (2 : ℝ) • ![q 0, q 1, q 2]

/-- NrotVecToQuat from Rotations.hpp: as rotVecToQuat, but the final
normalization is NQuat::normalize (with its identity fallback). -/
def NrotVecToQuat (v : Fin 3 → ℝ) : Fin 4 → ℝ :=
  nquatNormalize (if 1e-10 ≤ vnorm3 v then
    ![Real.sin (vnorm3 v / 2) / vnorm3 v * v 0,
      Real.sin (vnorm3 v / 2) / vnorm3 v * v 1,
      Real.sin (vnorm3 v / 2) / vnorm3 v * v 2,
      Real.cos (vnorm3 v / 2)]
  else ![v 0, v 1, v 2, Real.cos (vnorm3 v / 2)])

/-- LieG<N,M,L> from Rotations.hpp: N scalars, M 3-vectors, L quaternions
(the quaternion slots are NQuat values, stored here as 4-vectors). -/
structure LieG (N M L : ℕ) where
  scalars : Fin N → ℝ
  vectors : Fin M → Fin 3 → ℝ
  quats : Fin L → Fin 4 → ℝ

/-- LieG::operator- from Rotations.hpp, instantiated with operands of equal
shape: the tangent vector (LieA, of dimension N+M*3+L*3) whose first N
entries are the scalar differences, next M*3 entries the vector
differences, and last L*3 entries NquatToRotVec(x_i * quatInverse(y_i))
blockwise, with the source's flat block layout. -/
def LieG.sub {N M L : ℕ} (x y : LieG N M L) : Fin (N + M * 3 + L * 3) → ℝ :=
  fun i =>
  if h : (i : ℕ) < N then x.scalars ⟨i, h⟩ - y.scalars ⟨i, h⟩
  else if h2 : (i : ℕ) < N + M * 3 then
    x.vectors ⟨((i : ℕ) - N) / 3, (Nat.div_lt_iff_lt_mul (by norm_num)).mpr (by omega)⟩
        ⟨((i : ℕ) - N) % 3, Nat.mod_lt _ (by norm_num)⟩
      - y.vectors ⟨((i : ℕ) - N) / 3, (Nat.div_lt_iff_lt_mul (by norm_num)).mpr (by omega)⟩
        ⟨((i : ℕ) - N) % 3, Nat.mod_lt _ (by norm_num)⟩
  else
    NquatToRotVec (nquatMul
        (x.quats ⟨((i : ℕ) - N - M * 3) / 3,
          (Nat.div_lt_iff_lt_mul (by norm_num)).mpr (by have := i.isLt; omega)⟩)
        (quatInverse (y.quats ⟨((i : ℕ) - N - M * 3) / 3,
          (Nat.div_lt_iff_lt_mul (by norm_num)).mpr (by have := i.isLt; omega)⟩)))
      ⟨((i : ℕ) - N - M * 3) % 3, Nat.mod_lt _ (by norm_num)⟩

/-- LieG::operator+ from Rotations.hpp, instantiated with equal shapes:
scalar and vector slots add the corresponding tangent entries; quaternion
slot i becomes NrotVecToQuat(d-block) * quats_[i] (NQuat composition with
the perturbation on the left), reading the same flat block layout that
operator- writes. -/
def LieG.add {N M L : ℕ} (x : LieG N M L) (d : Fin (N + M * 3 + L * 3) → ℝ) :
    LieG N M L where
  scalars := fun i => x.scalars i + d ⟨(i : ℕ), by have := i.isLt; omega⟩
  vectors := fun i c => x.vectors i c +
    d ⟨N + (i : ℕ) * 3 + (c : ℕ), by have := i.isLt; have := c.isLt; omega⟩
  quats := fun i => nquatMul (NrotVecToQuat
      ![d ⟨N + M * 3 + (i : ℕ) * 3, by have := i.isLt; omega⟩,
        d ⟨N + M * 3 + (i : ℕ) * 3 + 1, by have := i.isLt; omega⟩,
        d ⟨N + M * 3 + (i : ℕ) * 3 + 2, by have := i.isLt; omega⟩])
    (x.quats i)

end

/-! Helper evaluation lemmas shared by several claims. -/

lemma vnorm3_nonneg (v : Fin 3 → ℝ) : 0 ≤ vnorm3 v := Real.sqrt_nonneg _

lemma vnorm3_single (x : ℝ) : vnorm3 ![x, 0, 0] = |x| := by
  simp [vnorm3, Real.sqrt_sq_eq_abs]

lemma vnorm3_smul (c : ℝ) (v : Fin 3 → ℝ) : vnorm3 (c • v) = |c| * vnorm3 v := by
  unfold vnorm3
  rw [show (c • v) 0 ^ 2 + (c • v) 1 ^ 2 + (c • v) 2 ^ 2
      = c ^ 2 * (v 0 ^ 2 + v 1 ^ 2 + v 2 ^ 2) by
    simp [Pi.smul_apply, smul_eq_mul]; ring]
  rw [Real.sqrt_mul (sq_nonneg c), Real.sqrt_sq_eq_abs]

lemma nquatNormalize_of_norm_one {q : Fin 4 → ℝ} (h : qnorm4 q = 1) :
    nquatNormalize q = q := by
  funext i
  rw [nquatNormalize, if_pos (by rw [h]; norm_num), h, div_one]

lemma atan2_nonneg {y x : ℝ} (hy : 0 ≤ y) : 0 ≤ atan2 y x := by
  rw [atan2, Complex.arg_nonneg_iff]
  simp [hy]

lemma atan2_le_pi (y x : ℝ) : atan2 y x ≤ π := Complex.arg_le_pi _

lemma atan2_sin_cos_mul {θ k : ℝ} (hk : 0 < k) (hθ : θ ∈ Set.Ioc (-π) π) :
    atan2 (Real.sin θ * k) (Real.cos θ * k) = θ := by
  rw [atan2]
  rw [show ((Real.cos θ * k : ℝ) : ℂ) + ((Real.sin θ * k : ℝ) : ℂ) * Complex.I
      = (k : ℂ) * ((Real.cos θ : ℝ) + (Real.sin θ : ℝ) * Complex.I) from by
    push_cast; ring]
  rw [Complex.arg_real_mul _ hk, Complex.ofReal_cos, Complex.ofReal_sin]
  exact Complex.arg_cos_add_sin_mul_I hθ

lemma atan2_sin_cos {θ : ℝ} (hθ : θ ∈ Set.Ioc (-π) π) :
    atan2 (Real.sin θ) (Real.cos θ) = θ := by
  have h := atan2_sin_cos_mul one_pos hθ
  rwa [mul_one, mul_one] at h

lemma vnorm3_sq (v : Fin 3 → ℝ) : vnorm3 v ^ 2 = v 0 ^ 2 + v 1 ^ 2 + v 2 ^ 2 :=
  Real.sq_sqrt (by positivity)

lemma qvec_mk (w x y z : ℝ) : qvec ![w, x, y, z] = ![w, x, y] := by
  funext i; fin_cases i <;> simp [qvec]

lemma vnorm3_mul_comp (c : ℝ) (v : Fin 3 → ℝ) :
    vnorm3 ![c * v 0, c * v 1, c * v 2] = |c| * vnorm3 v := by
  unfold vnorm3
  rw [show (![c * v 0, c * v 1, c * v 2] : Fin 3 → ℝ) 0 = c * v 0 from rfl,
    show (![c * v 0, c * v 1, c * v 2] : Fin 3 → ℝ) 1 = c * v 1 from rfl,
    show (![c * v 0, c * v 1, c * v 2] : Fin 3 → ℝ) 2 = c * v 2 from rfl,
    show (c * v 0) ^ 2 + (c * v 1) ^ 2 + (c * v 2) ^ 2
      = c ^ 2 * (v 0 ^ 2 + v 1 ^ 2 + v 2 ^ 2) from by ring,
    Real.sqrt_mul (sq_nonneg c), Real.sqrt_sq_eq_abs]

lemma rotVecToQuat_of_large {v : Fin 3 → ℝ} (h : (1e-10 : ℝ) ≤ vnorm3 v) :
    rotVecToQuat v =
      ![Real.sin (vnorm3 v / 2) / vnorm3 v * v 0,
        Real.sin (vnorm3 v / 2) / vnorm3 v * v 1,
        Real.sin (vnorm3 v / 2) / vnorm3 v * v 2,
        Real.cos (vnorm3 v / 2)] := by
  have ha : (0 : ℝ) < vnorm3 v := lt_of_lt_of_le (by norm_num) h
  have hsq := vnorm3_sq v
  have hsum : (Real.sin (vnorm3 v / 2) / vnorm3 v * v 0) ^ 2
      + (Real.sin (vnorm3 v / 2) / vnorm3 v * v 1) ^ 2
      + (Real.sin (vnorm3 v / 2) / vnorm3 v * v 2) ^ 2
      + Real.cos (vnorm3 v / 2) ^ 2 = 1 := by
    rw [show (Real.sin (vnorm3 v / 2) / vnorm3 v * v 0) ^ 2
        + (Real.sin (vnorm3 v / 2) / vnorm3 v * v 1) ^ 2
        + (Real.sin (vnorm3 v / 2) / vnorm3 v * v 2) ^ 2
        + Real.cos (vnorm3 v / 2) ^ 2
        = Real.sin (vnorm3 v / 2) ^ 2 / vnorm3 v ^ 2 * (v 0 ^ 2 + v 1 ^ 2 + v 2 ^ 2)
          + Real.cos (vnorm3 v / 2) ^ 2 from by ring]
    rw [← hsq, div_mul_cancel₀ _ (by positivity : vnorm3 v ^ 2 ≠ 0)]
    exact Real.sin_sq_add_cos_sq _
  have hq1 : qnorm4 ![Real.sin (vnorm3 v / 2) / vnorm3 v * v 0,
      Real.sin (vnorm3 v / 2) / vnorm3 v * v 1,
      Real.sin (vnorm3 v / 2) / vnorm3 v * v 2,
      Real.cos (vnorm3 v / 2)] = 1 := by
    unfold qnorm4
    simp only [Matrix.cons_val_zero, Matrix.cons_val_one, Matrix.head_cons,
      Matrix.cons_val_two, Matrix.tail_cons, Matrix.cons_val_three]
    rw [hsum, Real.sqrt_one]
  unfold rotVecToQuat
  rw [if_pos h]
  funext i
  unfold qnormalize
  rw [hq1, div_one]

lemma roundtrip_parts {v : Fin 3 → ℝ} (h : (1e-10 : ℝ) ≤ vnorm3 v)
    (hπ : vnorm3 v < π) :
    qvec (rotVecToQuat v) =
      ![Real.sin (vnorm3 v / 2) / vnorm3 v * v 0,
        Real.sin (vnorm3 v / 2) / vnorm3 v * v 1,
        Real.sin (vnorm3 v / 2) / vnorm3 v * v 2] ∧
    vnorm3 (qvec (rotVecToQuat v)) = Real.sin (vnorm3 v / 2) ∧
    rotVecToQuat v 3 = Real.cos (vnorm3 v / 2) := by
  have ha : (0 : ℝ) < vnorm3 v := lt_of_lt_of_le (by norm_num) h
  have h1 := rotVecToQuat_of_large h
  have hsin_nonneg : 0 ≤ Real.sin (vnorm3 v / 2) :=
    Real.sin_nonneg_of_nonneg_of_le_pi (by positivity) (by linarith [Real.pi_pos])
  refine ⟨by rw [h1, qvec_mk], ?_, by rw [h1]; simp⟩
  rw [h1, qvec_mk, vnorm3_mul_comp, abs_of_nonneg (div_nonneg hsin_nonneg ha.le),
    div_mul_cancel₀ _ (ne_of_gt ha)]

lemma roundtrip_eq_of_sin_large {v : Fin 3 → ℝ} (h : (1e-10 : ℝ) ≤ vnorm3 v)
    (hπ : vnorm3 v < π) (hs : (1e-10 : ℝ) ≤ Real.sin (vnorm3 v / 2)) :
    quatToRotVec (rotVecToQuat v) = v := by
  obtain ⟨hqv, hsn, h3⟩ := roundtrip_parts h hπ
  have ha : (0 : ℝ) < vnorm3 v := lt_of_lt_of_le (by norm_num) h
  have hsinpos : (0 : ℝ) < Real.sin (vnorm3 v / 2) := lt_of_lt_of_le (by norm_num) hs
  unfold quatToRotVec
  rw [hsn, if_pos hs, h3, hqv]
  rw [atan2_sin_cos ⟨by linarith [Real.pi_pos], by linarith [Real.pi_pos]⟩]
  have hs0 : Real.sin (vnorm3 v / 2) ≠ 0 := ne_of_gt hsinpos
  have ha0 : vnorm3 v ≠ 0 := ne_of_gt ha
  funext i
  fin_cases i <;> simp [Pi.smul_apply, smul_eq_mul] <;> field_simp <;> try ring

lemma sin_full (x : ℝ) : Real.sin x = 2 * Real.sin (x / 2) * Real.cos (x / 2) := by
  conv_lhs => rw [show x = 2 * (x / 2) from by ring]
  exact Real.sin_two_mul _

lemma cos_full (x : ℝ) : Real.cos x = Real.cos (x / 2) ^ 2 - Real.sin (x / 2) ^ 2 := by
  conv_lhs => rw [show x = 2 * (x / 2) from by ring]
  exact Real.cos_two_mul' _

lemma ypr_num0 (v : Fin 3 → ℝ) :
    2 * (-(yprToQuat v 3) * yprToQuat v 0 + yprToQuat v 1 * yprToQuat v 2)
      = Real.sin (v 0) * Real.cos (v 1) := by
  rw [sin_full (v 0), cos_full (v 1)]
  simp only [yprToQuat, Matrix.cons_val_zero, Matrix.cons_val_one, Matrix.head_cons,
    Matrix.cons_val_two, Matrix.tail_cons, Matrix.cons_val_three]
  linear_combination (2 * Real.cos (v 0 / 2) * Real.sin (v 0 / 2) *
    (Real.cos (v 1 / 2) ^ 2 - Real.sin (v 1 / 2) ^ 2)) * Real.sin_sq_add_cos_sq (v 2 / 2)

lemma ypr_den0 (v : Fin 3 → ℝ) :
    1 - 2 * (yprToQuat v 0 ^ 2 + yprToQuat v 1 ^ 2)
      = Real.cos (v 0) * Real.cos (v 1) := by
  rw [cos_full (v 0), cos_full (v 1)]
  simp only [yprToQuat, Matrix.cons_val_zero, Matrix.cons_val_one, Matrix.head_cons,
    Matrix.cons_val_two, Matrix.tail_cons, Matrix.cons_val_three]
  linear_combination (-(Real.sin (v 1 / 2) ^ 2) - Real.cos (v 1 / 2) ^ 2) *
      Real.sin_sq_add_cos_sq (v 0 / 2) +
    (-1 : ℝ) * Real.sin_sq_add_cos_sq (v 1 / 2) +
    (-2 * (Real.cos (v 0 / 2) ^ 2 * Real.sin (v 1 / 2) ^ 2 +
      Real.cos (v 1 / 2) ^ 2 * Real.sin (v 0 / 2) ^ 2)) * Real.sin_sq_add_cos_sq (v 2 / 2)

lemma ypr_num1 (v : Fin 3 → ℝ) :
    2 * (-(yprToQuat v 3) * yprToQuat v 1 - yprToQuat v 0 * yprToQuat v 2)
      = Real.sin (v 1) := by
  rw [sin_full (v 1)]
  simp only [yprToQuat, Matrix.cons_val_zero, Matrix.cons_val_one, Matrix.head_cons,
    Matrix.cons_val_two, Matrix.tail_cons, Matrix.cons_val_three]
  linear_combination (2 * Real.cos (v 1 / 2) * Real.sin (v 1 / 2) *
      (Real.sin (v 2 / 2) ^ 2 + Real.cos (v 2 / 2) ^ 2)) * Real.sin_sq_add_cos_sq (v 0 / 2) +
    (2 * Real.cos (v 1 / 2) * Real.sin (v 1 / 2)) * Real.sin_sq_add_cos_sq (v 2 / 2)

lemma ypr_num2 (v : Fin 3 → ℝ) :
    2 * (-(yprToQuat v 3) * yprToQuat v 2 + yprToQuat v 0 * yprToQuat v 1)
      = Real.sin (v 2) * Real.cos (v 1) := by
  rw [sin_full (v 2), cos_full (v 1)]
  simp only [yprToQuat, Matrix.cons_val_zero, Matrix.cons_val_one, Matrix.head_cons,
    Matrix.cons_val_two, Matrix.tail_cons, Matrix.cons_val_three]
  linear_combination (2 * Real.cos (v 2 / 2) * Real.sin (v 2 / 2) *
    (Real.cos (v 1 / 2) ^ 2 - Real.sin (v 1 / 2) ^ 2)) * Real.sin_sq_add_cos_sq (v 0 / 2)

lemma ypr_den2 (v : Fin 3 → ℝ) :
    1 - 2 * (yprToQuat v 1 ^ 2 + yprToQuat v 2 ^ 2)
      = Real.cos (v 2) * Real.cos (v 1) := by
  rw [cos_full (v 2), cos_full (v 1)]
  simp only [yprToQuat, Matrix.cons_val_zero, Matrix.cons_val_one, Matrix.head_cons,
    Matrix.cons_val_two, Matrix.tail_cons, Matrix.cons_val_three]
  linear_combination (-(Real.sin (v 1 / 2) ^ 2) - Real.cos (v 1 / 2) ^ 2) *
      Real.sin_sq_add_cos_sq (v 2 / 2) +
    (-1 : ℝ) * Real.sin_sq_add_cos_sq (v 1 / 2) +
    (-2 * (Real.cos (v 2 / 2) ^ 2 * Real.sin (v 1 / 2) ^ 2 +
      Real.cos (v 1 / 2) ^ 2 * Real.sin (v 2 / 2) ^ 2)) * Real.sin_sq_add_cos_sq (v 0 / 2)

lemma rpy_num0 (v : Fin 3 → ℝ) :
    2 * (-(rpyToQuat v 2) * rpyToQuat v 1 - rpyToQuat v 3 * rpyToQuat v 0)
      = Real.sin (v 2) * Real.cos (v 1) := by
  rw [sin_full (v 2), cos_full (v 1)]
  simp only [rpyToQuat, Matrix.cons_val_zero, Matrix.cons_val_one, Matrix.head_cons,
    Matrix.cons_val_two, Matrix.tail_cons, Matrix.cons_val_three]
  linear_combination (2 * Real.cos (v 2 / 2) * Real.sin (v 2 / 2) *
    (Real.cos (v 1 / 2) ^ 2 - Real.sin (v 1 / 2) ^ 2)) * Real.sin_sq_add_cos_sq (v 0 / 2)

lemma rpy_den0 (v : Fin 3 → ℝ) :
    rpyToQuat v 2 ^ 2 + rpyToQuat v 3 ^ 2 - rpyToQuat v 0 ^ 2 - rpyToQuat v 1 ^ 2
      = Real.cos (v 2) * Real.cos (v 1) := by
  rw [cos_full (v 1), cos_full (v 2)]
  simp only [rpyToQuat, Matrix.cons_val_zero, Matrix.cons_val_one, Matrix.head_cons,
    Matrix.cons_val_two, Matrix.tail_cons, Matrix.cons_val_three]
  linear_combination ((Real.cos (v 1 / 2) ^ 2 - Real.sin (v 1 / 2) ^ 2) *
    (Real.cos (v 2 / 2) ^ 2 - Real.sin (v 2 / 2) ^ 2)) * Real.sin_sq_add_cos_sq (v 0 / 2)

lemma rpy_num1 (v : Fin 3 → ℝ) :
    2 * (rpyToQuat v 0 * rpyToQuat v 2 - rpyToQuat v 3 * rpyToQuat v 1)
      = Real.sin (v 1) := by
  rw [sin_full (v 1)]
  simp only [rpyToQuat, Matrix.cons_val_zero, Matrix.cons_val_one, Matrix.head_cons,
    Matrix.cons_val_two, Matrix.tail_cons, Matrix.cons_val_three]
  linear_combination (2 * Real.cos (v 1 / 2) * Real.sin (v 1 / 2) *
      (Real.sin (v 2 / 2) ^ 2 + Real.cos (v 2 / 2) ^ 2)) * Real.sin_sq_add_cos_sq (v 0 / 2) +
    (2 * Real.cos (v 1 / 2) * Real.sin (v 1 / 2)) * Real.sin_sq_add_cos_sq (v 2 / 2)

lemma rpy_num2 (v : Fin 3 → ℝ) :
    -2 * rpyToQuat v 0 * rpyToQuat v 1 - 2 * rpyToQuat v 3 * rpyToQuat v 2
      = Real.sin (v 0) * Real.cos (v 1) := by
  rw [sin_full (v 0), cos_full (v 1)]
  simp only [rpyToQuat, Matrix.cons_val_zero, Matrix.cons_val_one, Matrix.head_cons,
    Matrix.cons_val_two, Matrix.tail_cons, Matrix.cons_val_three]
  linear_combination (2 * Real.cos (v 0 / 2) * Real.sin (v 0 / 2) *
    (Real.cos (v 1 / 2) ^ 2 - Real.sin (v 1 / 2) ^ 2)) * Real.sin_sq_add_cos_sq (v 2 / 2)

lemma rpy_den2 (v : Fin 3 → ℝ) :
    rpyToQuat v 0 ^ 2 + rpyToQuat v 3 ^ 2 - rpyToQuat v 2 ^ 2 - rpyToQuat v 1 ^ 2
      = Real.cos (v 0) * Real.cos (v 1) := by
  rw [cos_full (v 0), cos_full (v 1)]
  simp only [rpyToQuat, Matrix.cons_val_zero, Matrix.cons_val_one, Matrix.head_cons,
    Matrix.cons_val_two, Matrix.tail_cons, Matrix.cons_val_three]
  linear_combination ((Real.cos (v 0 / 2) ^ 2 - Real.sin (v 0 / 2) ^ 2) *
    (Real.cos (v 1 / 2) ^ 2 - Real.sin (v 1 / 2) ^ 2)) * Real.sin_sq_add_cos_sq (v 2 / 2)

lemma roundtrip_eq_of_sin_small {v : Fin 3 → ℝ} (h : (1e-10 : ℝ) ≤ vnorm3 v)
    (hπ : vnorm3 v < π) (hs : Real.sin (vnorm3 v / 2) < 1e-10) :
    quatToRotVec (rotVecToQuat v) =
      (2 * Real.sin (vnorm3 v / 2) / vnorm3 v) • v := by
  obtain ⟨hqv, hsn, h3⟩ := roundtrip_parts h hπ
  unfold quatToRotVec
  rw [hsn, if_neg (not_le.mpr hs), hqv]
  funext i
  fin_cases i <;> simp [Pi.smul_apply, smul_eq_mul] <;> ring

/-- Claim C10: for all 4-component quaternions p and q, the
left-multiplication matrix of p applied to q equals the
right-multiplication matrix of q applied to p. -/
theorem quatL_mulVec_eq_quatR_mulVec (p q : Fin 4 → ℝ) :
    (quatL p).mulVec q = (quatR q).mulVec p := by
  funext i
  fin_cases i <;>
    simp [quatL, quatR, Matrix.mulVec, Matrix.dotProduct, Fin.sum_univ_four] <;>
    ring

/-- Claim C1 (code bug evaluation): at a = b = (1,0,0,0), both 4x4
multiplication matrices give the Hamilton product (0,0,0,-1), while the
NQuat composition a * b gives (1,0,0,-1): the component form in the source
drops the a(3) factor on the b(0), b(1), b(2) terms, so it is not
mathematically equivalent to quatL/quatR. -/
theorem nquatMul_differs_from_quat_matrices :
    (quatL ![1, 0, 0, 0]).mulVec ![1, 0, 0, 0] = ![0, 0, 0, -1] ∧
    (quatR ![1, 0, 0, 0]).mulVec ![1, 0, 0, 0] = ![0, 0, 0, -1] ∧
    nquatMul ![1, 0, 0, 0] ![1, 0, 0, 0] = ![1, 0, 0, -1] ∧
    (![(1 : ℝ), 0, 0, -1] : Fin 4 → ℝ) ≠ ![0, 0, 0, -1] := by
  refine ⟨?_, ?_, ?_, ?_⟩
  · funext i
    fin_cases i <;>
      simp [quatL, Matrix.mulVec, Matrix.dotProduct, Fin.sum_univ_four]
  · funext i
    fin_cases i <;>
      simp [quatR, Matrix.mulVec, Matrix.dotProduct, Fin.sum_univ_four]
  · funext i
    fin_cases i <;> norm_num [nquatMul]
  · intro h
    have h0 := congrFun h 0
    norm_num at h0

/-- Claim C6 (code bug evaluation): quatInverse is an exact involution on
every quaternion, but for the unit quaternion q = (1,0,0,0) the NQuat
composition q * quatInverse(q) evaluates to (-1,0,0,1), which is not
(even approximately) the identity quaternion (0,0,0,1); the Hamilton
product would give the identity exactly. -/
theorem quatInverse_involutive_nquatMul_inverse_fails :
    (∀ q : Fin 4 → ℝ, quatInverse (quatInverse q) = q) ∧
    nquatMul ![1, 0, 0, 0] (quatInverse ![1, 0, 0, 0]) = ![-1, 0, 0, 1] ∧
    (![(-1 : ℝ), 0, 0, 1] : Fin 4 → ℝ) ≠ quatIdentity := by
  refine ⟨?_, ?_, ?_⟩
  · intro q
    funext i
    fin_cases i <;> simp [quatInverse]
  · funext i
    fin_cases i <;> norm_num [nquatMul, quatInverse]
  · intro h
    have h0 := congrFun h 0
    norm_num [quatIdentity] at h0

lemma NrotVecToQuat_pi_axis_x : NrotVecToQuat ![π, 0, 0] = ![1, 0, 0, 0] := by
  have hn : vnorm3 ![π, 0, 0] = π := by
    rw [vnorm3_single]; exact abs_of_pos Real.pi_pos
  unfold NrotVecToQuat
  rw [hn, if_pos (by linarith [Real.pi_gt_three])]
  have he : (![Real.sin (π / 2) / π * (![π, 0, 0] : Fin 3 → ℝ) 0,
      Real.sin (π / 2) / π * (![π, 0, 0] : Fin 3 → ℝ) 1,
      Real.sin (π / 2) / π * (![π, 0, 0] : Fin 3 → ℝ) 2,
      Real.cos (π / 2)] : Fin 4 → ℝ) = ![1, 0, 0, 0] := by
    funext i
    fin_cases i <;>
      norm_num [Real.sin_pi_div_two, Real.cos_pi_div_two, Real.pi_ne_zero]
  rw [he]
  exact nquatNormalize_of_norm_one (by norm_num [qnorm4])

/-- Claim C2 counterexample: the quaternion obtained from the rotation
vector (pi,0,0) is exactly (1,0,0,0), but composing it with itself via the
NQuat multiplication does not return the identity quaternion. -/
theorem nquat_halfturn_squared_not_identity :
    nquatMul (NrotVecToQuat ![π, 0, 0]) (NrotVecToQuat ![π, 0, 0]) ≠ nquatIdentity := by
  rw [NrotVecToQuat_pi_axis_x]
  intro h
  have h0 := congrFun h 0
  norm_num [nquatMul, nquatIdentity] at h0

/-- Claim C2 amended: the identity quaternion converts to the rotation
vector (0,0,0) exactly, and the rotation vector (pi,0,0) converts to the
quaternion (1,0,0,0) exactly; however, composing that quaternion with
itself via the NQuat multiplication returns (1,0,0,-1), not the identity
quaternion (the source composition drops the scalar-part factor; even the
exact Hamilton product would return (0,0,0,-1), the antipode of the
identity). -/
theorem identity_and_halfturn_conversions_eval :
    quatToRotVec quatIdentity = ![0, 0, 0] ∧
    NrotVecToQuat ![π, 0, 0] = ![1, 0, 0, 0] ∧
    nquatMul (NrotVecToQuat ![π, 0, 0]) (NrotVecToQuat ![π, 0, 0]) = ![1, 0, 0, -1] := by
  refine ⟨?_, NrotVecToQuat_pi_axis_x, ?_⟩
  · have hq : qvec quatIdentity = ![0, 0, 0] := by
      funext i; fin_cases i <;> simp [qvec, quatIdentity]
    unfold quatToRotVec
    rw [hq, if_neg (by norm_num [vnorm3])]
    funext i; fin_cases i <;> simp
  · rw [NrotVecToQuat_pi_axis_x]
    funext i; fin_cases i <;> norm_num [nquatMul]

/-- Claim C8: rangePi returns its argument unchanged whenever its norm is
at most pi (in particular at norm exactly pi); otherwise it returns the
collinear vector whose signed magnitude along v is the norm minus the
nearest integer multiple of 2*pi (witnessed by the floor expression of the
source, which is nearest among all integer multiples); the result's norm
never exceeds pi, and an input of norm 2*pi + 1/10 maps to norm 1/10. -/
theorem rangePi_wraps_norm_to_pi :
    (∀ v : Fin 3 → ℝ,
      (vnorm3 v ≤ π → rangePi v = v) ∧
      vnorm3 (rangePi v) ≤ π ∧
      (π < vnorm3 v →
        rangePi v =
          ((vnorm3 v - 2 * π * (⌊(vnorm3 v + π) / (2 * π)⌋ : ℤ)) / vnorm3 v) • v ∧
        ∀ m : ℤ,
          |vnorm3 v - 2 * π * (⌊(vnorm3 v + π) / (2 * π)⌋ : ℤ)| ≤
            |vnorm3 v - 2 * π * (m : ℝ)|)) ∧
    vnorm3 (rangePi ![2 * π + 1 / 10, 0, 0]) = 1 / 10 := by
  have h2π : (0 : ℝ) < 2 * π := by positivity
  have habs : ∀ v : Fin 3 → ℝ,
      |vnorm3 v - 2 * π * (⌊(vnorm3 v + π) / (2 * π)⌋ : ℤ)| ≤ π := by
    intro v
    have hA := (le_div_iff₀ h2π).mp (Int.floor_le ((vnorm3 v + π) / (2 * π)))
    have hB := (div_lt_iff₀ h2π).mp (Int.lt_floor_add_one ((vnorm3 v + π) / (2 * π)))
    rw [abs_le]
    constructor <;> nlinarith [hA, hB]
  have main : ∀ v : Fin 3 → ℝ,
      (vnorm3 v ≤ π → rangePi v = v) ∧
      vnorm3 (rangePi v) ≤ π ∧
      (π < vnorm3 v →
        rangePi v =
          ((vnorm3 v - 2 * π * (⌊(vnorm3 v + π) / (2 * π)⌋ : ℤ)) / vnorm3 v) • v ∧
        ∀ m : ℤ,
          |vnorm3 v - 2 * π * (⌊(vnorm3 v + π) / (2 * π)⌋ : ℤ)| ≤
            |vnorm3 v - 2 * π * (m : ℝ)|) := by
    intro v
    have hid : vnorm3 v ≤ π → rangePi v = v := by
      intro h
      unfold rangePi
      rw [if_pos h]
    have hbr : π < vnorm3 v →
        rangePi v =
          ((vnorm3 v - 2 * π * (⌊(vnorm3 v + π) / (2 * π)⌋ : ℤ)) / vnorm3 v) • v := by
      intro h
      unfold rangePi
      rw [if_neg (not_le.mpr h)]
      congr 1
      ring
    refine ⟨hid, ?_, fun h => ⟨hbr h, ?_⟩⟩
    · by_cases hle : vnorm3 v ≤ π
      · rw [hid hle]; exact hle
      · push_neg at hle
        have ha0 : 0 < vnorm3 v := lt_trans Real.pi_pos hle
        rw [hbr hle, vnorm3_smul, abs_div, abs_of_pos ha0,
          div_mul_cancel₀ _ (ne_of_gt ha0)]
        exact habs v
    · intro m
      by_cases hm : m = ⌊(vnorm3 v + π) / (2 * π)⌋
      · rw [hm]
      · have hZ : (1 : ℤ) ≤ |m - ⌊(vnorm3 v + π) / (2 * π)⌋| :=
          Int.one_le_abs (sub_ne_zero.mpr hm)
        have h1 : (1 : ℝ) ≤ |(m : ℝ) - (⌊(vnorm3 v + π) / (2 * π)⌋ : ℤ)| := by
          exact_mod_cast hZ
        have hX : 2 * π ≤ |2 * π * ((m : ℝ) - (⌊(vnorm3 v + π) / (2 * π)⌋ : ℤ))| := by
          rw [abs_mul, abs_of_pos h2π]
          nlinarith [h1]
        have h2 := abs_sub_abs_le_abs_sub
          (2 * π * ((m : ℝ) - (⌊(vnorm3 v + π) / (2 * π)⌋ : ℤ)))
          (vnorm3 v - 2 * π * (⌊(vnorm3 v + π) / (2 * π)⌋ : ℤ))
        rw [show 2 * π * ((m : ℝ) - (⌊(vnorm3 v + π) / (2 * π)⌋ : ℤ)) -
            (vnorm3 v - 2 * π * (⌊(vnorm3 v + π) / (2 * π)⌋ : ℤ)) =
            -(vnorm3 v - 2 * π * (m : ℝ)) from by ring, abs_neg] at h2
        linarith [habs v, hX, h2]
  refine ⟨main, ?_⟩
  have hv : vnorm3 ![2 * π + 1 / 10, 0, 0] = 2 * π + 1 / 10 := by
    rw [vnorm3_single, abs_of_pos (by positivity)]
  have hπlt : π < vnorm3 ![2 * π + 1 / 10, 0, 0] := by
    rw [hv]; linarith [Real.pi_pos]
  have hk : ⌊(vnorm3 ![2 * π + 1 / 10, 0, 0] + π) / (2 * π)⌋ = 1 := by
    rw [hv, Int.floor_eq_iff]
    constructor
    · rw [le_div_iff₀ h2π]; push_cast; linarith [Real.pi_pos]
    · rw [div_lt_iff₀ h2π]; push_cast; linarith [Real.pi_gt_three]
  have hbr := ((main ![2 * π + 1 / 10, 0, 0]).2.2 hπlt).1
  rw [hk] at hbr
  rw [hbr, vnorm3_smul, hv]
  rw [show (2 * π + 1 / 10 - 2 * π * ((1 : ℤ) : ℝ)) / (2 * π + 1 / 10) =
      (1 / 10) / (2 * π + 1 / 10) from by push_cast; ring]
  rw [abs_of_pos (by positivity), div_mul_cancel₀ _ (ne_of_gt (by positivity))]

/-- Claim C8 witness: the wrapping theorem applied at the two concrete
inputs of the claim, a vector of norm exactly pi (unchanged branch) and a
vector of norm 2*pi + 1/10 (wrapping branch, nearest-multiple property
instantiated at the multiple 3). -/
theorem rangePi_wraps_norm_to_pi_witness :
    (vnorm3 ![π, 0, 0] ≤ π ∧ rangePi ![π, 0, 0] = ![π, 0, 0]) ∧
    (π < vnorm3 ![2 * π + 1 / 10, 0, 0] ∧
      |vnorm3 ![2 * π + 1 / 10, 0, 0] -
          2 * π * (⌊(vnorm3 ![2 * π + 1 / 10, 0, 0] + π) / (2 * π)⌋ : ℤ)| ≤
        |vnorm3 ![2 * π + 1 / 10, 0, 0] - 2 * π * ((3 : ℤ) : ℝ)|) := by
  have h1 : vnorm3 ![π, 0, 0] ≤ π := by
    rw [vnorm3_single, abs_of_pos Real.pi_pos]
  have h2 : π < vnorm3 ![2 * π + 1 / 10, 0, 0] := by
    rw [vnorm3_single, abs_of_pos (by positivity)]
    linarith [Real.pi_pos]
  exact ⟨⟨h1, (rangePi_wraps_norm_to_pi.1 ![π, 0, 0]).1 h1⟩,
    ⟨h2, ((rangePi_wraps_norm_to_pi.1 ![2 * π + 1 / 10, 0, 0]).2.2 h2).2 3⟩⟩

/-- Claim C5 counterexample: the unit quaternion (sqrt(3)/2, 0, 0, -1/2)
has rotation vector of norm 4*pi/3, which exceeds pi, refuting the claim
that the implied rotation angle always lies in [0, pi]. -/
theorem quatToRotVec_angle_exceeds_pi :
    (Real.sqrt 3 / 2) ^ 2 + (0 : ℝ) ^ 2 + (0 : ℝ) ^ 2 + (-(1 / 2) : ℝ) ^ 2 = 1 ∧
    vnorm3 (quatToRotVec ![Real.sqrt 3 / 2, 0, 0, -(1 / 2)]) = 4 * π / 3 ∧
    π < 4 * π / 3 := by
  have hs3 : Real.sqrt 3 ^ 2 = 3 := Real.sq_sqrt (by norm_num)
  have hs3pos : 0 < Real.sqrt 3 := Real.sqrt_pos.mpr (by norm_num)
  have hs3ge : 1 ≤ Real.sqrt 3 := by
    nlinarith [hs3, hs3pos]
  refine ⟨by nlinarith [hs3], ?_, by linarith [Real.pi_pos]⟩
  have hqvec : qvec ![Real.sqrt 3 / 2, 0, 0, -(1 / 2)] = ![Real.sqrt 3 / 2, 0, 0] := by
    funext i; fin_cases i <;> simp [qvec]
  have hs : vnorm3 ![Real.sqrt 3 / 2, 0, 0] = Real.sqrt 3 / 2 := by
    rw [vnorm3_single, abs_of_pos (by positivity)]
  have h23 : (2 * π / 3 : ℝ) ∈ Set.Ioc (-π) π := by
    constructor <;> [linarith [Real.pi_pos]; linarith [Real.pi_pos]]
  have hc : Real.cos (2 * π / 3) = -(1 / 2) := by
    rw [show (2 * π / 3 : ℝ) = π - π / 3 from by ring, Real.cos_pi_sub,
      Real.cos_pi_div_three]
  have hsn : Real.sin (2 * π / 3) = Real.sqrt 3 / 2 := by
    rw [show (2 * π / 3 : ℝ) = π - π / 3 from by ring, Real.sin_pi_sub,
      Real.sin_pi_div_three]
  have harg : atan2 (Real.sqrt 3 / 2) (-(1 / 2)) = 2 * π / 3 := by
    rw [atan2]
    rw [show ((-(1 / 2) : ℝ) : ℂ) + ((Real.sqrt 3 / 2 : ℝ) : ℂ) * Complex.I
        = ((Real.cos (2 * π / 3) : ℝ) : ℂ) + ((Real.sin (2 * π / 3) : ℝ) : ℂ) * Complex.I
        from by rw [hc, hsn]]
    rw [Complex.ofReal_cos, Complex.ofReal_sin]
    exact Complex.arg_cos_add_sin_mul_I h23
  unfold quatToRotVec
  rw [hqvec, hs]
  rw [if_pos (by linarith)]
  rw [show (![Real.sqrt 3 / 2, 0, 0, -(1 / 2)] : Fin 4 → ℝ) 3 = -(1 / 2) from rfl]
  rw [harg, vnorm3_smul, hs, abs_of_pos (by positivity),
    div_mul_cancel₀ _ (by positivity : Real.sqrt 3 / 2 ≠ 0)]
  ring

/-- Claim C5 amended: quatToRotVec returns v*(2*atan2(norm(v), w))/norm(v)
when the vector part v has norm at least 1e-10 and 2*v otherwise, and for
every unit quaternion the norm of the returned rotation vector lies in
[0, 2*pi] (not [0, pi]: atan2(s, w) ranges over [0, pi] for s ≥ 0, so the
angle 2*atan2(s, w) reaches values above pi when w < 0). -/
theorem quatToRotVec_branches_and_range (q : Fin 4 → ℝ)
    (h : q 0 ^ 2 + q 1 ^ 2 + q 2 ^ 2 + q 3 ^ 2 = 1) :
    quatToRotVec q =
      (if 1e-10 ≤ vnorm3 (qvec q) then
        (2 * atan2 (vnorm3 (qvec q)) (q 3) / vnorm3 (qvec q)) • qvec q
      else (2 : ℝ) • qvec q) ∧
    0 ≤ vnorm3 (quatToRotVec q) ∧ vnorm3 (quatToRotVec q) ≤ 2 * π := by
  refine ⟨rfl, vnorm3_nonneg _, ?_⟩
  unfold quatToRotVec
  by_cases hc : 1e-10 ≤ vnorm3 (qvec q)
  · rw [if_pos hc, vnorm3_smul]
    have hs0 : 0 < vnorm3 (qvec q) := by linarith
    have harg0 : 0 ≤ atan2 (vnorm3 (qvec q)) (q 3) := atan2_nonneg (vnorm3_nonneg _)
    have hargpi : atan2 (vnorm3 (qvec q)) (q 3) ≤ π := atan2_le_pi _ _
    rw [abs_of_nonneg (by positivity), div_mul_cancel₀ _ (ne_of_gt hs0)]
    linarith
  · rw [if_neg hc, vnorm3_smul]
    push_neg at hc
    have := vnorm3_nonneg (qvec q)
    rw [abs_of_nonneg (by norm_num : (0:ℝ) ≤ 2)]
    nlinarith [Real.pi_gt_three]

/-- Claim C5 witness: the amended theorem applied to the concrete unit
quaternion (1,0,0,0). -/
theorem quatToRotVec_branches_and_range_witness :
    ((![1, 0, 0, 0] : Fin 4 → ℝ) 0 ^ 2 + (![1, 0, 0, 0] : Fin 4 → ℝ) 1 ^ 2 +
      (![1, 0, 0, 0] : Fin 4 → ℝ) 2 ^ 2 + (![1, 0, 0, 0] : Fin 4 → ℝ) 3 ^ 2 = 1) ∧
    (0 ≤ vnorm3 (quatToRotVec ![1, 0, 0, 0]) ∧
      vnorm3 (quatToRotVec ![1, 0, 0, 0]) ≤ 2 * π) :=
  ⟨by norm_num, (quatToRotVec_branches_and_range ![1, 0, 0, 0] (by norm_num)).2⟩

/-- Claim C9: whenever cos(rpy(1)) ≤ 1e-10 (in particular at pitch pi/2),
rpyToEarInv returns exactly the zero matrix (the function is total, so no
error is raised and no non-real value is produced); when cos(rpy(1))
exceeds 1e-10 it returns a nonzero matrix that is a left inverse of
rpyToEar. -/
theorem rpyToEarInv_gimbal_guard (rpy : Fin 3 → ℝ) :
    (Real.cos (rpy 1) ≤ 1e-10 → rpyToEarInv rpy = 0) ∧
    (1e-10 < Real.cos (rpy 1) →
      rpyToEarInv rpy * rpyToEar rpy = 1 ∧ rpyToEarInv rpy ≠ 0) := by
  constructor
  · intro h
    unfold rpyToEarInv
    rw [if_neg (not_lt.mpr h)]
  · intro h
    have hcp : Real.cos (rpy 1) ≠ 0 := by
      intro h0; rw [h0] at h; norm_num at h
    have hp1 := Real.sin_sq_add_cos_sq (rpy 1)
    have hp2 := Real.sin_sq_add_cos_sq (rpy 2)
    constructor
    · unfold rpyToEarInv
      rw [if_pos h]
      ext i j
      fin_cases i <;> fin_cases j <;>
        simp [rpyToEar, Matrix.mul_apply, Fin.sum_univ_three, Matrix.one_apply,
          Real.tan_eq_sin_div_cos]
      all_goals try field_simp
      all_goals try ring
      · linear_combination Real.cos (rpy 1) * hp2
      · linear_combination hp2
      · linear_combination (-(Real.sin (rpy 1)) * Real.cos (rpy 1) ^ 2) * hp2
    · intro h0
      unfold rpyToEarInv at h0
      rw [if_pos h] at h0
      have h22 := congrFun (congrFun h0 2) 2
      simp at h22

/-- Claim C9 witness: the guard theorem applied at pitch pi/2 (zero-matrix
branch, the gimbal-lock point singled out by the claim) and at the origin
(invertible branch). -/
theorem rpyToEarInv_gimbal_guard_witness :
    (Real.cos ((![0, π / 2, 0] : Fin 3 → ℝ) 1) ≤ 1e-10 ∧
      rpyToEarInv ![0, π / 2, 0] = 0) ∧
    (1e-10 < Real.cos ((![0, 0, 0] : Fin 3 → ℝ) 1) ∧
      rpyToEarInv ![0, 0, 0] * rpyToEar ![0, 0, 0] = 1 ∧
      rpyToEarInv ![0, 0, 0] ≠ 0) := by
  have h1 : Real.cos ((![0, π / 2, 0] : Fin 3 → ℝ) 1) ≤ 1e-10 := by
    norm_num [Real.cos_pi_div_two]
  have h2 : (1e-10 : ℝ) < Real.cos ((![0, 0, 0] : Fin 3 → ℝ) 1) := by
    norm_num [Real.cos_zero]
  exact ⟨⟨h1, (rpyToEarInv_gimbal_guard ![0, π / 2, 0]).1 h1⟩,
    ⟨h2, (rpyToEarInv_gimbal_guard ![0, 0, 0]).2 h2⟩⟩

/-- Claim C7 counterexample: for v = (1e-10, 0, 0), which has norm below
pi, the round trip quatToRotVec(rotVecToQuat(v)) is not exactly v even in
exact real arithmetic: the vector part of the intermediate quaternion has
norm sin(5e-11) < 1e-10, so quatToRotVec takes its small-angle branch and
returns (2*sin(5e-11), 0, 0), and sin(x) < x for x > 0. -/
theorem rotVec_roundtrip_not_exact :
    vnorm3 ![(1e-10 : ℝ), 0, 0] < π ∧
    quatToRotVec (rotVecToQuat ![(1e-10 : ℝ), 0, 0]) ≠ ![(1e-10 : ℝ), 0, 0] := by
  have hn : vnorm3 ![(1e-10 : ℝ), 0, 0] = 1e-10 := by
    rw [vnorm3_single]; norm_num
  have hπ : vnorm3 ![(1e-10 : ℝ), 0, 0] < π := by
    rw [hn]; linarith [Real.pi_gt_three]
  refine ⟨hπ, ?_⟩
  have h : (1e-10 : ℝ) ≤ vnorm3 ![(1e-10 : ℝ), 0, 0] := le_of_eq hn.symm
  have hs : Real.sin (vnorm3 ![(1e-10 : ℝ), 0, 0] / 2) < 1e-10 := by
    rw [hn]
    calc Real.sin (1e-10 / 2) < 1e-10 / 2 := Real.sin_lt (by norm_num)
      _ < 1e-10 := by norm_num
  rw [roundtrip_eq_of_sin_small h hπ hs, hn]
  intro heq
  have h0 := congrFun heq 0
  simp [Pi.smul_apply, smul_eq_mul] at h0
  have hlt := Real.sin_lt (show (0 : ℝ) < 1e-10 / 2 by norm_num)
  norm_num at h0 hlt
  linarith

/-- Claim C7 amended: for every rotation vector v with norm below pi, the
round trip quatToRotVec(rotVecToQuat(v)) returns v within tolerance 1e-9;
the round trip is exact whenever sin(norm(v)/2) ≥ 1e-10, but on the thin
remainder of the domain it returns a slightly shortened (or, below norm
1e-10, nearly doubled) multiple of v, so even in exact real arithmetic it
is not the identity on the whole domain. -/
theorem rotVec_roundtrip_within_tolerance (v : Fin 3 → ℝ)
    (hπ : vnorm3 v < π) :
    vnorm3 (quatToRotVec (rotVecToQuat v) - v) ≤ 1e-9 := by
  have ha0 : 0 ≤ vnorm3 v := vnorm3_nonneg v
  by_cases h : (1e-10 : ℝ) ≤ vnorm3 v
  · by_cases hs : (1e-10 : ℝ) ≤ Real.sin (vnorm3 v / 2)
    · rw [roundtrip_eq_of_sin_large h hπ hs, sub_self]
      have : vnorm3 (0 : Fin 3 → ℝ) = 0 := by
        norm_num [vnorm3]
      rw [this]; norm_num
    · push_neg at hs
      rw [roundtrip_eq_of_sin_small h hπ hs]
      have ha : (0 : ℝ) < vnorm3 v := lt_of_lt_of_le (by norm_num) h
      have hsub : (2 * Real.sin (vnorm3 v / 2) / vnorm3 v) • v - v
          = (2 * Real.sin (vnorm3 v / 2) / vnorm3 v - 1) • v := by
        funext i
        simp [Pi.smul_apply, Pi.sub_apply, smul_eq_mul]
        ring
      rw [hsub, vnorm3_smul]
      have hsle : Real.sin (vnorm3 v / 2) ≤ vnorm3 v / 2 :=
        Real.sin_le (by positivity)
      have hsnn : 0 ≤ Real.sin (vnorm3 v / 2) :=
        Real.sin_nonneg_of_nonneg_of_le_pi (by positivity) (by linarith [Real.pi_pos])
      have h1 : 2 * Real.sin (vnorm3 v / 2) / vnorm3 v - 1 ≤ 0 := by
        have : 2 * Real.sin (vnorm3 v / 2) / vnorm3 v ≤ 1 := by
          rw [div_le_one ha]; linarith
        linarith
      rw [abs_of_nonpos h1, show -(2 * Real.sin (vnorm3 v / 2) / vnorm3 v - 1)
          = 1 - 2 * Real.sin (vnorm3 v / 2) / vnorm3 v from by ring]
      rw [show (1 - 2 * Real.sin (vnorm3 v / 2) / vnorm3 v) * vnorm3 v
          = vnorm3 v - 2 * Real.sin (vnorm3 v / 2) from by field_simp]
      have hasmall : vnorm3 v < 1 / 500 := by
        by_contra hcon
        push_neg at hcon
        have hmono := Real.strictMonoOn_sin.monotoneOn
          (Set.mem_Icc.mpr ⟨by linarith [Real.pi_gt_three], by linarith [Real.pi_gt_three]⟩)
          (Set.mem_Icc.mpr ⟨by linarith [Real.pi_pos], by linarith [Real.pi_pos]⟩)
          (by linarith : (1 : ℝ) / 1000 ≤ vnorm3 v / 2)
        have hlow : (1 : ℝ) / 1000 - ((1 : ℝ) / 1000) ^ 3 / 4 < Real.sin (1 / 1000) :=
          Real.sin_gt_sub_cube (by norm_num) (by norm_num)
        nlinarith [hmono, hlow, hs]
      have hcube : vnorm3 v / 2 - (vnorm3 v / 2) ^ 3 / 4 < Real.sin (vnorm3 v / 2) :=
        Real.sin_gt_sub_cube (by linarith) (by linarith)
      have hpow : vnorm3 v ^ 3 ≤ (1 / 500 : ℝ) ^ 3 :=
        pow_le_pow_left₀ ha0 (le_of_lt hasmall) 3
      nlinarith [hcube, hpow]
  · push_neg at h
    have hQ : rotVecToQuat v = qnormalize ![v 0, v 1, v 2, Real.cos (vnorm3 v / 2)] := by
      unfold rotVecToQuat
      rw [if_neg (not_le.mpr h)]
    set n := qnorm4 ![v 0, v 1, v 2, Real.cos (vnorm3 v / 2)] with hn
    have hn2 : n ^ 2 = vnorm3 v ^ 2 + Real.cos (vnorm3 v / 2) ^ 2 := by
      rw [hn]
      unfold qnorm4
      rw [Real.sq_sqrt (by positivity), vnorm3_sq]
      simp
    have hnn : 0 ≤ n := Real.sqrt_nonneg _
    have hsin2 : Real.sin (vnorm3 v / 2) ^ 2 ≤ (vnorm3 v / 2) ^ 2 := by
      have h1 : Real.sin (vnorm3 v / 2) ≤ vnorm3 v / 2 := Real.sin_le (by positivity)
      have h2 : 0 ≤ Real.sin (vnorm3 v / 2) :=
        Real.sin_nonneg_of_nonneg_of_le_pi (by positivity)
          (by nlinarith [Real.pi_gt_three])
      nlinarith
    have hge1 : 1 ≤ n := by
      nlinarith [hn2, hnn, hsin2, Real.sin_sq_add_cos_sq (vnorm3 v / 2), ha0]
    have hnpos : (0 : ℝ) < n := lt_of_lt_of_le one_pos hge1
    have hqv : qvec (rotVecToQuat v) = ![(1 / n) * v 0, (1 / n) * v 1, (1 / n) * v 2] := by
      rw [hQ]
      funext i
      fin_cases i <;> simp [qvec, qnormalize, ← hn] <;> ring
    have hs_small : vnorm3 (qvec (rotVecToQuat v)) < 1e-10 := by
      rw [hqv, vnorm3_mul_comp, abs_of_pos (by positivity)]
      have hle : 1 / n * vnorm3 v ≤ vnorm3 v := by
        rw [one_div]
        calc n⁻¹ * vnorm3 v ≤ 1 * vnorm3 v :=
              mul_le_mul_of_nonneg_right (inv_le_one_of_one_le₀ hge1) ha0
          _ = vnorm3 v := one_mul _
      linarith
    unfold quatToRotVec
    rw [if_neg (not_le.mpr hs_small), hqv]
    have hsub : ((2 : ℝ) • ![(1 / n) * v 0, (1 / n) * v 1, (1 / n) * v 2] : Fin 3 → ℝ) - v
        = (2 / n - 1) • v := by
      funext i
      fin_cases i <;> simp [Pi.smul_apply, Pi.sub_apply, smul_eq_mul] <;> ring
    rw [hsub, vnorm3_smul]
    have habs1 : |2 / n - 1| ≤ 1 := by
      rw [abs_le]
      constructor
      · have hpos : (0 : ℝ) < 2 / n := by positivity
        linarith
      · have h2n : 2 / n ≤ 2 := div_le_self (by norm_num) hge1
        linarith
    calc |2 / n - 1| * vnorm3 v ≤ 1 * vnorm3 v :=
          mul_le_mul_of_nonneg_right habs1 ha0
      _ = vnorm3 v := one_mul _
      _ ≤ 1e-9 := by linarith

/-- Claim C7 witness: the tolerance theorem applied at the zero vector. -/
theorem rotVec_roundtrip_within_tolerance_witness :
    vnorm3 ![(0 : ℝ), 0, 0] < π ∧
    vnorm3 (quatToRotVec (rotVecToQuat ![(0 : ℝ), 0, 0]) - ![(0 : ℝ), 0, 0]) ≤ 1e-9 := by
  have h : vnorm3 ![(0 : ℝ), 0, 0] < π := by
    rw [vnorm3_single]
    norm_num [Real.pi_pos]
  exact ⟨h, rotVec_roundtrip_within_tolerance _ h⟩

/-- Claim C4 counterexample: at the angle triple (1/5, 0, 0), whose
components all lie strictly inside (-pi/2, pi/2), the roll-pitch-yaw round
trip quatToRpy(rpyToQuat(v)) returns (0, 0, 1/5), not v: the rpy family is
not internally consistent as a forward/inverse pair. -/
theorem quatToRpy_rpyToQuat_not_inverse :
    |(1 / 5 : ℝ)| < π / 2 ∧
    quatToRpy (rpyToQuat ![1 / 5, 0, 0]) ≠ ![1 / 5, 0, 0] := by
  have hπ3 := Real.pi_gt_three
  refine ⟨by rw [abs_of_pos (by norm_num)]; linarith, ?_⟩
  intro heq
  have h0 := congrFun heq 0
  have hc0 : quatToRpy (rpyToQuat ![1 / 5, 0, 0]) 0 = 0 := by
    simp only [quatToRpy, Matrix.cons_val_zero]
    rw [rpy_num0, rpy_den0]
    rw [show (![(1 : ℝ) / 5, 0, 0] : Fin 3 → ℝ) 2 = 0 from rfl,
      show (![(1 : ℝ) / 5, 0, 0] : Fin 3 → ℝ) 1 = 0 from rfl,
      Real.sin_zero, Real.cos_zero]
    rw [atan2]
    norm_num [Complex.arg_one]
  rw [hc0] at h0
  norm_num at h0

/-- Claim C4 amended: on angle triples with every component strictly inside
(-pi/2, pi/2), the yaw-pitch-roll family is an exact forward/inverse pair:
quatToYpr(yprToQuat(v)) = v; the roll-pitch-yaw family is consistent only
up to a fixed reversal of the first and last components:
quatToRpy(rpyToQuat(v)) = (v(2), v(1), v(0)). -/
theorem euler_roundtrips (v : Fin 3 → ℝ)
    (h0 : |v 0| < π / 2) (h1 : |v 1| < π / 2) (h2 : |v 2| < π / 2) :
    quatToYpr (yprToQuat v) = v ∧
    quatToRpy (rpyToQuat v) = ![v 2, v 1, v 0] := by
  obtain ⟨h0l, h0r⟩ := abs_lt.mp h0
  obtain ⟨h1l, h1r⟩ := abs_lt.mp h1
  obtain ⟨h2l, h2r⟩ := abs_lt.mp h2
  have hπ := Real.pi_pos
  have hcb : 0 < Real.cos (v 1) := Real.cos_pos_of_mem_Ioo ⟨by linarith, by linarith⟩
  constructor
  · funext i
    fin_cases i
    · simp only [quatToYpr, Matrix.cons_val_zero]
      rw [ypr_num0, ypr_den0]
      exact atan2_sin_cos_mul hcb ⟨by linarith, by linarith⟩
    · simp only [quatToYpr, Matrix.cons_val_one, Matrix.head_cons]
      rw [ypr_num1]
      exact Real.arcsin_sin (by linarith) (by linarith)
    · simp only [quatToYpr, Matrix.cons_val_two, Matrix.tail_cons, Matrix.head_cons]
      rw [ypr_num2, ypr_den2]
      exact atan2_sin_cos_mul hcb ⟨by linarith, by linarith⟩
  · funext i
    fin_cases i
    · simp only [quatToRpy, Matrix.cons_val_zero]
      rw [rpy_num0, rpy_den0]
      exact atan2_sin_cos_mul hcb ⟨by linarith, by linarith⟩
    · simp only [quatToRpy, Matrix.cons_val_one, Matrix.head_cons]
      rw [rpy_num1]
      exact Real.arcsin_sin (by linarith) (by linarith)
    · simp only [quatToRpy, Matrix.cons_val_two, Matrix.tail_cons, Matrix.head_cons]
      rw [rpy_num2, rpy_den2]
      exact atan2_sin_cos_mul hcb ⟨by linarith, by linarith⟩

/-- Claim C4 witness: the round-trip theorem applied at the angle triple
(0, 0, 0). -/
theorem euler_roundtrips_witness :
    |(![0, 0, 0] : Fin 3 → ℝ) 0| < π / 2 ∧
    (quatToYpr (yprToQuat ![0, 0, 0]) = ![0, 0, 0] ∧
      quatToRpy (rpyToQuat ![0, 0, 0]) =
        ![(![0, 0, 0] : Fin 3 → ℝ) 2, (![0, 0, 0] : Fin 3 → ℝ) 1,
          (![0, 0, 0] : Fin 3 → ℝ) 0]) := by
  have hb0 : |(![0, 0, 0] : Fin 3 → ℝ) 0| < π / 2 := by
    simp
    positivity
  have hb1 : |(![0, 0, 0] : Fin 3 → ℝ) 1| < π / 2 := by
    simp
    positivity
  have hb2 : |(![0, 0, 0] : Fin 3 → ℝ) 2| < π / 2 := by
    simp
    positivity
  exact ⟨hb0, euler_roundtrips ![0, 0, 0] hb0 hb1 hb2⟩

lemma quatInverse_id : quatInverse nquatIdentity = nquatIdentity := by
  funext i; fin_cases i <;> norm_num [quatInverse, nquatIdentity]

lemma nquatMul_id_id : nquatMul nquatIdentity nquatIdentity = nquatIdentity := by
  funext i; fin_cases i <;> norm_num [nquatMul, nquatIdentity]

lemma NquatToRotVec_id : NquatToRotVec nquatIdentity = ![0, 0, 0] := by
  unfold NquatToRotVec
  rw [show (![nquatIdentity 0, nquatIdentity 1, nquatIdentity 2] : Fin 3 → ℝ) = ![0, 0, 0]
      from by funext i; fin_cases i <;> norm_num [nquatIdentity]]
  rw [if_neg (by norm_num [vnorm3])]
  funext i; fin_cases i <;> norm_num

lemma NrotVecToQuat_zero : NrotVecToQuat ![0, 0, 0] = nquatIdentity := by
  unfold NrotVecToQuat
  have hv : vnorm3 ![(0 : ℝ), 0, 0] = 0 := by norm_num [vnorm3]
  rw [hv, if_neg (by norm_num)]
  rw [show (![(![(0 : ℝ), 0, 0] : Fin 3 → ℝ) 0, (![(0 : ℝ), 0, 0] : Fin 3 → ℝ) 1,
      (![(0 : ℝ), 0, 0] : Fin 3 → ℝ) 2, Real.cos (0 / 2)] : Fin 4 → ℝ) = ![0, 0, 0, 1]
      from by funext i; fin_cases i <;> norm_num]
  rw [nquatNormalize_of_norm_one (by norm_num [qnorm4])]
  rfl

/-- Claim C3 counterexample: for scalar-only states x = (1), y = (0) of
shape (1,0,0), x + (x - y) has scalar 2, not 1, so x ⊞ (x ⊟ y) is not
approximately x; and for the shape (0,0,1) state x whose only quaternion
slot is the unit quaternion (1,0,0,0), x - x is not the zero tangent
vector (its first entry is -pi/2, because the NQuat composition drops the
scalar-part factor). -/
theorem lieG_claim_fails :
    (LieG.add (⟨![1], ![], ![]⟩ : LieG 1 0 0)
        (LieG.sub (⟨![1], ![], ![]⟩ : LieG 1 0 0) ⟨![0], ![], ![]⟩)).scalars 0 ≠
      (⟨![1], ![], ![]⟩ : LieG 1 0 0).scalars 0 ∧
    LieG.sub (⟨![], ![], ![![1, 0, 0, 0]]⟩ : LieG 0 0 1)
        ⟨![], ![], ![![1, 0, 0, 0]]⟩ ≠ (fun _ => 0) := by
  constructor
  · norm_num [LieG.add, LieG.sub]
  · intro h
    have h0 := congrFun h ⟨0, by norm_num⟩
    simp only [LieG.sub] at h0
    rw [dif_neg (by norm_num), dif_neg (by norm_num)] at h0
    norm_num at h0
    have hmul : nquatMul ![1, 0, 0, 0] (quatInverse ![1, 0, 0, 0]) = ![(-1 : ℝ), 0, 0, 1] := by
      funext i; fin_cases i <;> norm_num [nquatMul, quatInverse]
    rw [hmul] at h0
    unfold NquatToRotVec at h0
    rw [show (![(![(-1 : ℝ), 0, 0, 1] : Fin 4 → ℝ) 0, (![(-1 : ℝ), 0, 0, 1] : Fin 4 → ℝ) 1,
        (![(-1 : ℝ), 0, 0, 1] : Fin 4 → ℝ) 2] : Fin 3 → ℝ) = ![(-1 : ℝ), 0, 0] from by
      funext j; fin_cases j <;> norm_num] at h0
    rw [show vnorm3 ![(-1 : ℝ), 0, 0] = 1 from by norm_num [vnorm3]] at h0
    rw [if_pos (by norm_num)] at h0
    norm_num at h0
    have harg : atan2 1 1 ≠ 0 := by
      unfold atan2
      intro hc
      rw [Complex.arg_eq_zero_iff] at hc
      simp at hc
    exact harg h0

/-- Claim C3 amended: for operands of equal shape (N,M,L) whose quaternion
slots are all the identity quaternion, x - x is exactly the zero tangent
vector of dimension N+3M+3L, and y + (x - y) is exactly x.  (The claim's
identity x + (x - y) ≈ x fails already for scalar states, and with general
unit quaternion slots both identities fail because NQuat composition drops
the scalar-part factor.) -/
theorem lieG_identities {N M L : ℕ} (x y : LieG N M L)
    (hx : ∀ i, x.quats i = nquatIdentity) (hy : ∀ i, y.quats i = nquatIdentity) :
    LieG.sub x x = (fun _ => 0) ∧ LieG.add y (LieG.sub x y) = x := by
  have hzero3 : ∀ j : Fin 3, (![(0 : ℝ), 0, 0] : Fin 3 → ℝ) j = 0 := by
    intro j; fin_cases j <;> norm_num
  constructor
  · funext i
    unfold LieG.sub
    by_cases h : (i : ℕ) < N
    · rw [dif_pos h]; ring
    · rw [dif_neg h]
      by_cases h2 : (i : ℕ) < N + M * 3
      · rw [dif_pos h2]; ring
      · rw [dif_neg h2, hx, quatInverse_id, nquatMul_id_id, NquatToRotVec_id]
        exact hzero3 _
  · rcases x with ⟨xs, xv, xq⟩
    rcases y with ⟨ys, yv, yq⟩
    simp only [LieG.add, LieG.mk.injEq]
    refine ⟨?_, ?_, ?_⟩
    · funext i
      have hi := i.isLt
      simp only [LieG.sub]
      rw [dif_pos (show ((i : ℕ) : ℕ) < N from hi)]
      simp [Fin.eta]
    · funext i c
      have hi := i.isLt
      have hc := c.isLt
      simp only [LieG.sub]
      rw [dif_neg (by omega), dif_pos (by omega)]
      have e1 : (N + (i : ℕ) * 3 + (c : ℕ) - N) / 3 = (i : ℕ) := by omega
      have e2 : (N + (i : ℕ) * 3 + (c : ℕ) - N) % 3 = (c : ℕ) := by omega
      simp only [e1, e2, Fin.eta]
      ring
    · funext i
      have hi := i.isLt
      have hd0 : LieG.sub ⟨xs, xv, xq⟩ ⟨ys, yv, yq⟩
          ⟨N + M * 3 + (i : ℕ) * 3, by omega⟩ = 0 := by
        simp only [LieG.sub]
        rw [dif_neg (by omega), dif_neg (by omega)]
        have e1 : (N + M * 3 + (i : ℕ) * 3 - N - M * 3) / 3 = (i : ℕ) := by omega
        have e2 : (N + M * 3 + (i : ℕ) * 3 - N - M * 3) % 3 = 0 := by omega
        simp only [e1, e2]
        rw [show xq ⟨(i : ℕ), by omega⟩ = nquatIdentity from hx _,
          show yq ⟨(i : ℕ), by omega⟩ = nquatIdentity from hy _]
        rw [quatInverse_id, nquatMul_id_id, NquatToRotVec_id]
        exact hzero3 _
      have hd1 : LieG.sub ⟨xs, xv, xq⟩ ⟨ys, yv, yq⟩
          ⟨N + M * 3 + (i : ℕ) * 3 + 1, by omega⟩ = 0 := by
        simp only [LieG.sub]
        rw [dif_neg (by omega), dif_neg (by omega)]
        have e1 : (N + M * 3 + (i : ℕ) * 3 + 1 - N - M * 3) / 3 = (i : ℕ) := by omega
        have e2 : (N + M * 3 + (i : ℕ) * 3 + 1 - N - M * 3) % 3 = 1 := by omega
        simp only [e1, e2]
        rw [show xq ⟨(i : ℕ), by omega⟩ = nquatIdentity from hx _,
          show yq ⟨(i : ℕ), by omega⟩ = nquatIdentity from hy _]
        rw [quatInverse_id, nquatMul_id_id, NquatToRotVec_id]
        exact hzero3 _
      have hd2 : LieG.sub ⟨xs, xv, xq⟩ ⟨ys, yv, yq⟩
          ⟨N + M * 3 + (i : ℕ) * 3 + 2, by omega⟩ = 0 := by
        simp only [LieG.sub]
        rw [dif_neg (by omega), dif_neg (by omega)]
        have e1 : (N + M * 3 + (i : ℕ) * 3 + 2 - N - M * 3) / 3 = (i : ℕ) := by omega
        have e2 : (N + M * 3 + (i : ℕ) * 3 + 2 - N - M * 3) % 3 = 2 := by omega
        simp only [e1, e2]
        rw [show xq ⟨(i : ℕ), by omega⟩ = nquatIdentity from hx _,
          show yq ⟨(i : ℕ), by omega⟩ = nquatIdentity from hy _]
        rw [quatInverse_id, nquatMul_id_id, NquatToRotVec_id]
        exact hzero3 _
      rw [hd0, hd1, hd2]
      rw [show (![(0 : ℝ), 0, 0] : Fin 3 → ℝ) = ![0, 0, 0] from rfl, NrotVecToQuat_zero]
      rw [show yq i = nquatIdentity from hy _, nquatMul_id_id]
      exact (hx i).symm

/-- Claim C3 witness: the amended theorem applied to a concrete pair of
shape (1,1,1) states with identity quaternion slots. -/
theorem lieG_identities_witness :
    ((⟨![2], ![![1, 2, 3]], ![![0, 0, 0, 1]]⟩ : LieG 1 1 1).quats 0 = nquatIdentity ∧
      (⟨![5], ![![0, 0, 0]], ![![0, 0, 0, 1]]⟩ : LieG 1 1 1).quats 0 = nquatIdentity) ∧
    (LieG.sub (⟨![2], ![![1, 2, 3]], ![![0, 0, 0, 1]]⟩ : LieG 1 1 1)
        ⟨![2], ![![1, 2, 3]], ![![0, 0, 0, 1]]⟩ = (fun _ => 0) ∧
      LieG.add (⟨![5], ![![0, 0, 0]], ![![0, 0, 0, 1]]⟩ : LieG 1 1 1)
        (LieG.sub (⟨![2], ![![1, 2, 3]], ![![0, 0, 0, 1]]⟩ : LieG 1 1 1)
          ⟨![5], ![![0, 0, 0]], ![![0, 0, 0, 1]]⟩) =
        ⟨![2], ![![1, 2, 3]], ![![0, 0, 0, 1]]⟩) :=
  ⟨⟨rfl, rfl⟩, lieG_identities _ _ (by intro i; fin_cases i; rfl)
    (by intro i; fin_cases i; rfl)⟩

end Rotations
end LSE
